import Mathlib

/-!
Shallow embedding of `src/llm_infer.py` (RulesBench): the bounded-concurrency
LLM inference dispatcher.  Time is modelled by rationals (readings of the
monotonic clock), the backend by an oracle assigning each call an outcome
(a response object or a raised exception message), and the cooperative
scheduler by explicit completion orders / transition systems.
-/

namespace LLMInfer

/-- Python's substring operator `sub in s`, specialised to character lists:
`seqStartsWith sub s` is true when `sub` is a prefix of `s`. -/
def seqStartsWith : List Char → List Char → Bool
  | [], _ => true
  | _ :: _, [] => false
  | a :: as, b :: bs => a == b && seqStartsWith as bs

/-- Python's `sub in s` (substring containment) on character lists. -/
def seqContains (sub : List Char) : List Char → Bool
  | [] => seqStartsWith sub []
  | s@(_ :: rest) => seqStartsWith sub s || seqContains sub rest

/-- Python `sub in s` on strings. -/
def strContains (sub s : String) : Bool :=
  seqContains sub.toList s.toList

/-- Python `s.lower()` (per-character lowering, as for the ASCII names used here). -/
def strLower (s : String) : List Char :=
  s.toList.map Char.toLower

/-- Python `sub in s.lower()` for a lowercase ASCII `sub`. -/
def strContainsLower (sub s : String) : Bool :=
  seqContains sub.toList (strLower s)

/-- Monotonic-clock readings (`time.monotonic()`), modelled as rationals. -/
abbrev Time := ℚ

/-! ### RateLimiter (llm_infer.py lines 31-51) -/

/-- The state of `RateLimiter`: configuration plus the retained list of
timestamps of recent calls (`self.calls`). -/
structure RateLimiter where
  max_calls : ℕ
  period : Time
  calls : List Time
deriving DecidableEq, Repr

/-- The constructor `RateLimiter.__init__(max_calls, period)`: starts with
`calls = []`. -/
def RateLimiter.init (max_calls : ℕ) (period : Time) : RateLimiter :=
  ⟨max_calls, period, []⟩

/-- Line 43/50: `[t for t in self.calls if now - t < self.period]`. -/
def pruneCalls (period now : Time) (calls : List Time) : List Time :=
  calls.filter (fun t => decide (now - t < period))

/-- The method `RateLimiter.acquire` (lines 40-51) with the three monotonic-clock
readings made explicit: `t1` is `now` at entry (line 41), `t2` the reading
after the `asyncio.sleep` (line 49), `t3` the reading appended at line 51.
Returns the new state and the sleep duration performed (0 when no sleep
happened), or `none` when the Python code would raise `IndexError`
(`self.calls[0]` on an empty list, possible only when `max_calls = 0`). -/
def RateLimiter.acquire (rl : RateLimiter) (t1 t2 t3 : Time) :
    Option (RateLimiter × Time) :=
  let pruned := pruneCalls rl.period t1 rl.calls
  if rl.max_calls ≤ pruned.length then
    match pruned with
    | [] => none
    | c0 :: _ =>
      let sleep_time := rl.period - (t1 - c0)
      let pruned2 := pruneCalls rl.period t2 pruned
      some (⟨rl.max_calls, rl.period, pruned2 ++ [t3]⟩, sleep_time)
  else
    some (⟨rl.max_calls, rl.period, pruned ++ [t3]⟩, 0)

/-- One `acquire()` event of a sequential trace: its three clock readings. -/
structure Tick where
  t1 : Time
  t2 : Time
  t3 : Time
deriving DecidableEq, Repr

/-- Run a sequence of `acquire()` calls, collecting the sleep durations;
`none` as soon as one call raises. -/
def runAcquires (rl : RateLimiter) : List Tick → Option (RateLimiter × List Time)
  | [] => some (rl, [])
  | e :: es =>
    match rl.acquire e.t1 e.t2 e.t3 with
    | none => none
    | some (rl', s) =>
      match runAcquires rl' es with
      | none => none
      | some (rlf, ss) => some (rlf, s :: ss)

/-- A sequential trace of successful `acquire()` calls whose clock readings
are consistent with a monotonic clock and with `asyncio.sleep`: readings
never decrease across and inside events, the events all succeed, and the
reading taken after sleeping `s` seconds is at least `s` later than the one
taken before. `tl` is the latest clock reading before the trace starts. -/
inductive ValidRun : RateLimiter → Time → List Tick → RateLimiter → List Time → Prop
  | nil (rl : RateLimiter) (tl : Time) : ValidRun rl tl [] rl []
  | cons {rl rl' rlf : RateLimiter} {tl s : Time} {e : Tick} {es : List Tick}
      {ss : List Time}
      (h0 : tl ≤ e.t1) (h1 : e.t1 ≤ e.t2) (h2 : e.t2 ≤ e.t3)
      (hacq : rl.acquire e.t1 e.t2 e.t3 = some (rl', s))
      (hsleep : e.t1 + s ≤ e.t2)
      (hrest : ValidRun rl' e.t3 es rlf ss) :
      ValidRun rl tl (e :: es) rlf (s :: ss)

/-- The pruning predicate of line 43/50: `t` still counts as recent at
clock reading `now`. -/
def recentB (p now t : Time) : Bool := decide (now - t < p)

/-- Whether `t` lies within the trailing window of length `p` ending at `T`. -/
def inWindow (p T t : Time) : Bool := decide (t ≤ T) && decide (T - t < p)

/-! ### Backend oracle and the worker `single_call` (lines 81-98) -/

/-- A successful response object returned by `llm.invoke` / `llm.abatch`
(`langchain` message): only its `.content` field is observed here. -/
structure Response where
  content : String
deriving DecidableEq, Repr

/-- Outcome of one backend invocation: a response, or the raised exception's
string rendering `str(e)`. -/
inductive Outcome where
  | success (resp : Response)
  | failure (msg : String)
deriving DecidableEq, Repr

/-- What the worker hands back for one prompt: the raw response object, or a
plain string (either `response.content` or the `"No Response"` sentinel). -/
inductive InferenceResult where
  | raw (resp : Response)
  | text (s : String)
deriving DecidableEq, Repr

/-- Line 91/156/167: Azure's two content-filter exception message patterns. -/
def isContentFilterMsg (msg : String) : Bool :=
  strContains "content filter being triggered" msg ||
    strContains "was filtered due to" msg

/-- The body of `single_call` (lines 84-98) after the semaphore/rate-limiter
suspensions, for a given backend-call outcome, threading the `tqdm` progress
counter `pbar` through the `finally` block.  On success: the raw response
when the model name contains `"llama"` case-insensitively, else
`response.content` (lines 86-89).  On any exception: the `"No Response"`
sentinel — the two branches at lines 91-96 differ only in the warning they
log. -/
def singleCallP (name : String) (outcome : Outcome) (pbar : ℕ) :
    InferenceResult × ℕ :=
  match outcome with
  | .success resp =>
    if !(strContainsLower "llama" name) then
      (.text resp.content, pbar + 1)
    else
      (.raw resp, pbar + 1)
  | .failure msg =>
    if isContentFilterMsg msg then
      -- tqdm.write "Content filter triggered for prompt ..."
      (.text "No Response", pbar + 1)
    else
      -- tqdm.write "Error processing prompt ..."
      (.text "No Response", pbar + 1)

/-- The result value of `single_call`, ignoring the progress side effect. -/
def singleCall (name : String) (outcome : Outcome) : InferenceResult :=
  (singleCallP name outcome 0).1

/-! ### Rate-class selection (lines 68-77) -/

/-- The `(max_calls, period)` pair of the `RateLimiter` together with the
capacity of the `asyncio.Semaphore` chosen for a backend. -/
structure RateProfile where
  max_calls : ℕ
  period : Time
  sem_capacity : ℕ
deriving DecidableEq, Repr

/-- Default value of the `concurrency_limit` parameter of
`invoke_async_nonbatched` (line 53). -/
def defaultConcurrencyLimit : ℕ := 25

/-- Lines 68-77: the semaphore starts at `concurrency_limit`; a name
containing `'LLaMA'` selects `RateLimiter(500, 60)` and a fresh semaphore of
capacity 1, else a name containing `'Claude'` selects `RateLimiter(1000, 30)`
and capacity 2, else the default profile `RateLimiter(10000, 60)` keeps the
initial semaphore. -/
def selectProfile (name : String) (concurrency_limit : ℕ := defaultConcurrencyLimit) :
    RateProfile :=
  if strContains "LLaMA" name then
    ⟨500, 60, 1⟩
  else if strContains "Claude" name then
    ⟨1000, 30, 2⟩
  else
    ⟨10000, 60, concurrency_limit⟩

/-! ### Dispatcher `invoke_async_nonbatched` (lines 53-105), result semantics

One task per prompt is created (line 100) and `asyncio.gather` collects the
task results positionally (line 101).  The backend is an oracle
`f : ℕ → Outcome` giving the outcome of the call made for the prompt at each
position. -/

/-- Sequential result/progress semantics of the task list: task `i` computes
`single_call` on outcome `f i`, progress advancing through each task's
`finally`. -/
def runTasksP (name : String) (f : ℕ → Outcome) :
    List ℕ → ℕ → List InferenceResult × ℕ
  | [], pbar => ([], pbar)
  | i :: is, pbar =>
    let (r, pbar1) := singleCallP name (f i) pbar
    let (rs, pbar2) := runTasksP name f is pbar1
    (r :: rs, pbar2)

/-- The list returned by `invoke_async_nonbatched(llm, prompts, name)`:
`asyncio.gather` yields the value of task `i` at position `i`. -/
def invoke_async_nonbatched (name : String) (f : ℕ → Outcome)
    (prompts : List String) : List InferenceResult :=
  (runTasksP name f (List.range prompts.length) 0).1

/-- Positional collection of `asyncio.gather`, with the completion order made
explicit: tasks finish in the order listed in `order`, each writing its
result into its own slot of the result array; unfinished slots are `none`. -/
def gatherSlots (n : ℕ) (res : ℕ → InferenceResult) (order : List ℕ) :
    List (Option InferenceResult) :=
  order.foldl (fun acc i => acc.set i (some (res i))) (List.replicate n none)

/-! ### The concurrency gate (`asyncio.Semaphore`, lines 68-75 and 82)

`single_call` wraps its whole body in `async with semaphore:`; the semaphore
slot is released on every exit path of the body (success or exception).  The
interleaving of the cooperative scheduler is modelled by a transition system:
each task is pending, running (inside the guarded region), or done. -/

inductive Phase where
  | task_pending
  | task_running
  | task_done
deriving DecidableEq, Repr

/-- Scheduler state: semaphore capacity `k`, free permits `sem`, one phase
per task. -/
structure GateSys where
  k : ℕ
  sem : ℕ
  tasks : List Phase
deriving DecidableEq, Repr

/-- Initial state for a batch of `n` prompts under a semaphore of capacity
`k`: all permits free, every task pending. -/
def gateInit (k n : ℕ) : GateSys :=
  ⟨k, k, List.replicate n .task_pending⟩

/-- Number of tasks currently inside the `async with semaphore:` region. -/
def inflight (s : GateSys) : ℕ :=
  s.tasks.countP (fun p => p == .task_running)

/-- One scheduler step: a pending task enters the guarded region by taking a
free permit (`async with semaphore:` acquisition), or a running task leaves
— with either a result or an absorbed exception, `ok` — and its permit is
released unconditionally. -/
inductive GateStep : GateSys → GateSys → Prop
  | enter (s : GateSys) (i : ℕ) (h : s.tasks[i]? = some .task_pending)
      (hsem : 0 < s.sem) :
      GateStep s ⟨s.k, s.sem - 1, s.tasks.set i .task_running⟩
  | leave (s : GateSys) (i : ℕ) (ok : Bool)
      (h : s.tasks[i]? = some .task_running) :
      GateStep s ⟨s.k, s.sem + 1, s.tasks.set i .task_done⟩

/-- States reachable from `init` by scheduler steps. -/
inductive GateReachable (init : GateSys) : GateSys → Prop
  | refl : GateReachable init init
  | step {s s' : GateSys} (hr : GateReachable init s) (hs : GateStep s s') :
      GateReachable init s'

/-! ### Batched fallback `invoke_concurrently_batch` (lines 141-175) -/

/-- An element of the `results` list of the batched path: a raw response
object appended on success, or the `"No Response"` sentinel string. -/
inductive BatchItem where
  | resp (r : Response)
  | sentinel
deriving DecidableEq, Repr

/-- Oracle for `llm.abatch`: the list of responses, or the raised
exception's string rendering. -/
abbrev BatchOracle := List String → Except String (List Response)

/-- Lines 159-173: after a chunk-level failure, retry one query of the chunk
individually; `resp[0]` on an empty response list raises `IndexError`, which
the enclosing `except Exception` also converts to the sentinel. -/
def retryIndividually (g : BatchOracle) (query : String) : BatchItem :=
  match g [query] with
  | .ok resp =>
    match resp.head? with
    | some r => .resp r
    | none => .sentinel
  | .error _ =>
    -- content-filter and generic failures differ only in what is printed
    .sentinel

/-- Lines 147-173: process one chunk — extend with the batch responses on
success, else retry each query of the chunk individually. -/
def processChunk (g : BatchOracle) (batch : List String) : List BatchItem :=
  match g batch with
  | .ok resp => resp.map .resp
  | .error _ => batch.map (retryIndividually g)

/-- Line 144: the chunks `exs[i:i+batch_size]` for `i = 0, bs, 2*bs, ...`. -/
def chunksOf (bs : ℕ) (hbs : 0 < bs) : List String → List (List String)
  | [] => []
  | e :: es =>
    ((e :: es).take bs) :: chunksOf bs hbs ((e :: es).drop bs)
  termination_by l => l.length
  decreasing_by simp; omega

/-- Line 142: `batch_size = 10`. -/
def batchSize : ℕ := 10

/-- The function `invoke_concurrently_batch(llm, exs)` (lines 141-175). -/
def invoke_concurrently_batch (g : BatchOracle) (exs : List String) :
    List BatchItem :=
  (chunksOf batchSize (by decide) exs).flatMap (processChunk g)

/-! ### `llm_infer` (lines 109-191) -/

/-- A Python argument that is either a bare string or a list of strings. -/
inductive StrOrList where
  | str (s : String)
  | list (l : List String)
deriving DecidableEq, Repr

/-- Reading `elt.content` on a batch item: `none` models the `AttributeError` raised
when `elt` is the `"No Response"` sentinel string. -/
def BatchItem.contentAttr : BatchItem → Option String
  | .resp r => some r.content
  | .sentinel => none

/-- The value `llm_infer` returns: the list from the non-batched path, or
what the dead batched path would build (`[elt.content for elt in output]`,
since by line 188 `ex` is always a list). -/
inductive LLMInferValue where
  | nonbatched (rs : List InferenceResult)
  | batched (contents : List (Option String))
deriving DecidableEq, Repr

/-- The function `llm_infer(ex, model)` (lines 109-191): a bare string is wrapped into a
one-element list (lines 115-116); `async_nonbatched` is hard-coded `True`
(line 136), so the function returns `invoke_async_nonbatched(llm, ex, model)`
(line 139); the remaining batched code is kept below the early return.  `f`
is the backend oracle for the non-batched path and `g` the `llm.abatch`
oracle of the batched path. -/
def llm_infer (model : String) (f : ℕ → Outcome) (g : BatchOracle)
    (ex : StrOrList) : LLMInferValue :=
  let exList : List String :=
    match ex with
    | .str s => [s]
    | .list l => l
  let async_nonbatched := true
  if async_nonbatched then
    .nonbatched (invoke_async_nonbatched model f exList)
  else
    -- lines 180/188: `ex` was already replaced by the wrapped list, so
    -- `isinstance(ex, list)` is always true here
    .batched ((invoke_concurrently_batch g exList).map BatchItem.contentAttr)

/-! ### Helper lemmas -/

/-- The result of `single_call` does not depend on the progress counter, and the
`finally` block advances the counter by exactly one on every branch. -/
lemma singleCallP_eq (name : String) (o : Outcome) (pbar : ℕ) :
    singleCallP name o pbar = (singleCall name o, pbar + 1) := by
  cases o <;> simp only [singleCallP, singleCall] <;> split <;> rfl

lemma runTasksP_fst (name : String) (f : ℕ → Outcome) (is : List ℕ) (pbar : ℕ) :
    (runTasksP name f is pbar).1 = is.map (fun i => singleCall name (f i)) := by
  induction is generalizing pbar with
  | nil => rfl
  | cons i is ih => simp [runTasksP, singleCallP_eq, ih]

lemma runTasksP_snd (name : String) (f : ℕ → Outcome) (is : List ℕ) (pbar : ℕ) :
    (runTasksP name f is pbar).2 = pbar + is.length := by
  induction is generalizing pbar with
  | nil => rfl
  | cons i is ih => simp [runTasksP, singleCallP_eq, ih]; omega

lemma invoke_async_nonbatched_eq (name : String) (f : ℕ → Outcome)
    (prompts : List String) :
    invoke_async_nonbatched name f prompts =
      (List.range prompts.length).map (fun i => singleCall name (f i)) := by
  simp [invoke_async_nonbatched, runTasksP_fst]

lemma gatherSlots_foldl_getElem? (res : ℕ → InferenceResult) (order : List ℕ) :
    ∀ (acc : List (Option InferenceResult)) (i : ℕ),
      (order.foldl (fun a j => a.set j (some (res j))) acc)[i]? =
        if i ∈ order ∧ i < acc.length then some (some (res i)) else acc[i]? := by
  induction order with
  | nil => intro acc i; simp
  | cons j order ih =>
    intro acc i
    rw [List.foldl_cons, ih]
    rcases Decidable.em (i < acc.length) with hlt | hlt
    · rcases Decidable.em (i ∈ order) with hmem | hmem
      · simp [hmem, hlt, List.length_set]
      · rcases Decidable.em (j = i) with hji | hji
        · simp [hji, hmem, hlt, List.length_set, List.getElem?_set]
        · simp [hji, hmem, hlt, List.length_set, List.getElem?_set, Ne.symm hji]
    · have hle : acc.length ≤ i := Nat.le_of_not_lt hlt
      have hle' : (acc.set j (some (res j))).length ≤ i := by
        simpa [List.length_set] using hle
      simp [hlt, List.length_set, List.getElem?_eq_none hle,
        List.getElem?_eq_none hle']

lemma gatherSlots_eq_of_perm (n : ℕ) (res : ℕ → InferenceResult)
    (order : List ℕ) (h : order.Perm (List.range n)) :
    gatherSlots n res order = (List.range n).map (fun i => some (res i)) := by
  apply List.ext_getElem?
  intro i
  rw [gatherSlots, gatherSlots_foldl_getElem?]
  have hmem : i ∈ order ↔ i < n := by rw [h.mem_iff, List.mem_range]
  rcases Decidable.em (i < n) with hlt | hlt
  · simp [hmem, hlt, List.getElem?_range hlt]
  · have hn : n ≤ i := Nat.le_of_not_lt hlt
    simp [hmem, hlt, List.getElem?_eq_none, hn]

lemma processChunk_length (g : BatchOracle) (batch : List String)
    (hlen : ∀ b rs, g b = .ok rs → rs.length = b.length) :
    (processChunk g batch).length = batch.length := by
  unfold processChunk
  cases h : g batch with
  | ok rs => simp [hlen _ _ h]
  | error e => simp

lemma chunks_flatMap_length (g : BatchOracle)
    (hlen : ∀ b rs, g b = .ok rs → rs.length = b.length)
    (bs : ℕ) (hbs : 0 < bs) :
    ∀ exs : List String,
      ((chunksOf bs hbs exs).flatMap (processChunk g)).length = exs.length := by
  suffices h : ∀ (n : ℕ) (exs : List String), exs.length ≤ n →
      ((chunksOf bs hbs exs).flatMap (processChunk g)).length = exs.length by
    intro exs; exact h exs.length exs le_rfl
  intro n
  induction n with
  | zero =>
    intro exs h
    have : exs = [] := List.eq_nil_of_length_eq_zero (Nat.le_zero.mp h)
    subst this
    simp [chunksOf]
  | succ n ih =>
    intro exs h
    cases exs with
    | nil => simp [chunksOf]
    | cons e es =>
      rw [chunksOf]
      have hdrop : ((e :: es).drop bs).length ≤ n := by
        simp only [List.length_drop, List.length_cons]
        simp only [List.length_cons] at h
        omega
      simp only [List.flatMap_cons, List.length_append, ih _ hdrop,
        processChunk_length g _ hlen, List.length_take, List.length_drop]
      simp only [List.length_cons]
      omega

lemma countP_set_balance {α : Type} (p : α → Bool) :
    ∀ (l : List α) (i : ℕ) (a b : α), l[i]? = some a →
      (l.set i b).countP p + (if p a then 1 else 0) =
        l.countP p + (if p b then 1 else 0) := by
  intro l
  induction l with
  | nil => intro i a b h; simp at h
  | cons x xs ih =>
    intro i a b h
    cases i with
    | zero =>
      simp only [List.getElem?_cons_zero, Option.some.injEq] at h
      subst h
      simp only [List.set_cons_zero, List.countP_cons]
      omega
    | succ i =>
      simp only [List.getElem?_cons_succ] at h
      simp only [List.set_cons_succ, List.countP_cons]
      have := ih i a b h
      omega

lemma gate_inv (k n : ℕ) (s : GateSys) (hr : GateReachable (gateInit k n) s) :
    s.k = k ∧ inflight s + s.sem = k := by
  induction hr with
  | refl =>
    refine ⟨rfl, ?_⟩
    simp [gateInit, inflight, List.countP_eq_zero]
  | step hr hs ih =>
    rcases ih with ⟨hk, hinv⟩
    cases hs with
    | enter i h hsem =>
      rename_i t
      have hbal := countP_set_balance (fun p => p == Phase.task_running)
        t.tasks i .task_pending .task_running h
      simp only [inflight] at hinv ⊢
      simp [show ((Phase.task_pending == Phase.task_running) = false)
        from rfl] at hbal
      exact ⟨hk, by omega⟩
    | leave i ok h =>
      rename_i t
      have hbal := countP_set_balance (fun p => p == Phase.task_running)
        t.tasks i .task_running .task_done h
      simp only [inflight] at hinv ⊢
      simp [show ((Phase.task_done == Phase.task_running) = false)
        from rfl] at hbal
      exact ⟨hk, by omega⟩

lemma pruneCalls_eq_filter (p now : Time) (l : List Time) :
    pruneCalls p now l = l.filter (recentB p now) := rfl

lemma recentB_mono {p now t' t : Time} (h : now ≤ t')
    (ht : recentB p t' t = true) : recentB p now t = true := by
  simp only [recentB, decide_eq_true_eq] at *
  linarith

lemma filter_eq_filter_filter {l : List Time} {q r : Time → Bool}
    (h : ∀ t ∈ l, q t = true → r t = true) :
    l.filter q = (l.filter r).filter q := by
  rw [List.filter_filter]
  apply List.filter_congr
  intro a ha
  rcases hq : q a
  · simp
  · simp [h a ha hq]

/-- Core bookkeeping of one `acquire` that appends `t3` after reducing the
retained list to `FP`: every invariant of the sliding window survives.
`A` is the list of all previously admitted timestamps and `tl` the latest
clock reading. -/
lemma step_core (p : Time) (mc : ℕ) (calls A FP : List Time)
    (tl t1 t3 : Time)
    (hA : ∀ t ∈ A, t ≤ tl)
    (hC : ∀ t ∈ calls, t ≤ tl)
    (hsub : (A.filter (recentB p tl)).Sublist calls)
    (hcnt : ∀ T, A.countP (inWindow p T) ≤ mc)
    (h0 : tl ≤ t1) (h13 : t1 ≤ t3)
    (hFPlen : FP.length + 1 ≤ mc)
    (hFP3 : (calls.filter (recentB p t3)).Sublist FP)
    (hFPmem : ∀ t ∈ FP, t ∈ calls) :
    (FP ++ [t3]).length ≤ mc ∧
    (∀ t ∈ A ++ [t3], t ≤ t3) ∧
    (∀ t ∈ FP ++ [t3], t ≤ t3) ∧
    ((A ++ [t3]).filter (recentB p t3)).Sublist (FP ++ [t3]) ∧
    (∀ T, (A ++ [t3]).countP (inWindow p T) ≤ mc) := by
  have hAq : (A.filter (recentB p t3)).Sublist FP := by
    have hmono : ∀ t ∈ A, recentB p t3 t = true → recentB p tl t = true :=
      fun t _ ht => recentB_mono (le_trans h0 h13) ht
    rw [filter_eq_filter_filter hmono]
    exact (hsub.filter _).trans hFP3
  refine ⟨?_, ?_, ?_, ?_, ?_⟩
  · simpa using hFPlen
  · intro t ht
    rcases List.mem_append.mp ht with h | h
    · exact le_trans (hA t h) (le_trans h0 h13)
    · simp only [List.mem_singleton] at h
      exact le_of_eq h
  · intro t ht
    rcases List.mem_append.mp ht with h | h
    · exact le_trans (hC t (hFPmem t h)) (le_trans h0 h13)
    · simp only [List.mem_singleton] at h
      exact le_of_eq h
  · rw [List.filter_append]
    rcases hq : recentB p t3 t3 with _ | _
    · have he : List.filter (recentB p t3) [t3] = [] := by
        simp [List.filter_cons, hq]
      rw [he, List.append_nil]
      exact hAq.trans (List.sublist_append_left FP [t3])
    · have he : List.filter (recentB p t3) [t3] = [t3] := by
        simp [List.filter_cons, hq]
      rw [he]
      exact hAq.append (List.Sublist.refl [t3])
  · intro T
    rw [List.countP_append]
    rcases hw : inWindow p T t3 with _ | _
    · have he : List.countP (inWindow p T) [t3] = 0 := by
        simp [List.countP_cons, hw]
      rw [he]
      have := hcnt T
      omega
    · have hT3 : t3 ≤ T := by
        simp only [inWindow, Bool.and_eq_true, decide_eq_true_eq] at hw
        exact hw.1
      have hcA : List.countP (inWindow p T) A ≤ List.countP (recentB p t3) A := by
        apply List.countP_mono_left
        intro t _ hwt
        simp only [inWindow, Bool.and_eq_true, decide_eq_true_eq] at hwt
        simp only [recentB, decide_eq_true_eq]
        linarith [hwt.2]
      have hlenA : List.countP (recentB p t3) A ≤ FP.length := by
        rw [List.countP_eq_length_filter]
        exact hAq.length_le
      have h1' : List.countP (inWindow p T) [t3] ≤ 1 := by
        simp [List.countP_cons, hw]
      omega

/-- One successful `acquire` preserves the sliding-window invariants. -/
lemma acquire_step_inv (rl rl' : RateLimiter) (t1 t2 t3 s : Time)
    (A : List Time) (tl : Time)
    (hacq : rl.acquire t1 t2 t3 = some (rl', s))
    (hlen : rl.calls.length ≤ rl.max_calls)
    (hA : ∀ t ∈ A, t ≤ tl)
    (hC : ∀ t ∈ rl.calls, t ≤ tl)
    (hsub : (A.filter (recentB rl.period tl)).Sublist rl.calls)
    (hcnt : ∀ T, A.countP (inWindow rl.period T) ≤ rl.max_calls)
    (h0 : tl ≤ t1) (h1 : t1 ≤ t2) (h2 : t2 ≤ t3) (hsleep : t1 + s ≤ t2) :
    rl'.max_calls = rl.max_calls ∧ rl'.period = rl.period ∧
    rl'.calls.length ≤ rl.max_calls ∧
    (∀ t ∈ A ++ [t3], t ≤ t3) ∧
    (∀ t ∈ rl'.calls, t ≤ t3) ∧
    ((A ++ [t3]).filter (recentB rl.period t3)).Sublist rl'.calls ∧
    (∀ T, (A ++ [t3]).countP (inWindow rl.period T) ≤ rl.max_calls) := by
  have h13 : t1 ≤ t3 := le_trans h1 h2
  have hm1 : ∀ t ∈ rl.calls, recentB rl.period t3 t = true →
      recentB rl.period t1 t = true :=
    fun t _ ht => recentB_mono h13 ht
  simp only [RateLimiter.acquire] at hacq
  split at hacq
  case isTrue hcond =>
    split at hacq
    case h_1 => exact absurd hacq (by simp)
    case h_2 c0 tail heq =>
      simp only [Option.some.injEq, Prod.mk.injEq] at hacq
      obtain ⟨hrl', hs⟩ := hacq
      subst hrl'
      have hc0 : recentB rl.period t2 c0 = false := by
        simp only [recentB, decide_eq_false_iff_not, not_lt]
        have : t1 + (rl.period - (t1 - c0)) ≤ t2 := by rw [hs]; exact hsleep
        linarith
      have hFPeq : pruneCalls rl.period t2 (pruneCalls rl.period t1 rl.calls) =
          tail.filter (recentB rl.period t2) := by
        rw [heq, pruneCalls_eq_filter, List.filter_cons, hc0]
        simp
      have hplen : (pruneCalls rl.period t1 rl.calls).length ≤ rl.calls.length :=
        List.length_filter_le _ _
      have hFPlen :
          (pruneCalls rl.period t2 (pruneCalls rl.period t1 rl.calls)).length + 1 ≤
            rl.max_calls := by
        rw [hFPeq]
        have h1l : (tail.filter (recentB rl.period t2)).length ≤ tail.length :=
          List.length_filter_le _ _
        have h2l : tail.length + 1 = (pruneCalls rl.period t1 rl.calls).length := by
          rw [heq]; simp
        omega
      have hm2 : ∀ t ∈ pruneCalls rl.period t1 rl.calls,
          recentB rl.period t3 t = true → recentB rl.period t2 t = true :=
        fun t _ ht => recentB_mono h2 ht
      have hFP3 : (rl.calls.filter (recentB rl.period t3)).Sublist
          (pruneCalls rl.period t2 (pruneCalls rl.period t1 rl.calls)) := by
        have step1 : rl.calls.filter (recentB rl.period t3) =
            (rl.calls.filter (recentB rl.period t1)).filter (recentB rl.period t3) :=
          filter_eq_filter_filter hm1
        have step2 : (rl.calls.filter (recentB rl.period t1)).filter
              (recentB rl.period t3) =
            ((rl.calls.filter (recentB rl.period t1)).filter
              (recentB rl.period t2)).filter (recentB rl.period t3) :=
          filter_eq_filter_filter hm2
        rw [step1, step2]
        exact List.filter_sublist _
      have hFPmem : ∀ t ∈ pruneCalls rl.period t2 (pruneCalls rl.period t1 rl.calls),
          t ∈ rl.calls := by
        intro t ht
        rw [pruneCalls_eq_filter] at ht
        have ht1 := (List.mem_filter.mp ht).1
        rw [pruneCalls_eq_filter] at ht1
        exact (List.mem_filter.mp ht1).1
      obtain ⟨e1, e2, e3, e4, e5⟩ := step_core rl.period rl.max_calls rl.calls A
        (pruneCalls rl.period t2 (pruneCalls rl.period t1 rl.calls)) tl t1 t3
        hA hC hsub hcnt h0 h13 hFPlen hFP3 hFPmem
      exact ⟨rfl, rfl, e1, e2, e3, e4, e5⟩
  case isFalse hcond =>
    simp only [Option.some.injEq, Prod.mk.injEq] at hacq
    obtain ⟨hrl', hs⟩ := hacq
    subst hrl'
    have hFPlen : (pruneCalls rl.period t1 rl.calls).length + 1 ≤ rl.max_calls := by
      omega
    have hFP3 : (rl.calls.filter (recentB rl.period t3)).Sublist
        (pruneCalls rl.period t1 rl.calls) := by
      have step1 : rl.calls.filter (recentB rl.period t3) =
          (rl.calls.filter (recentB rl.period t1)).filter (recentB rl.period t3) :=
        filter_eq_filter_filter hm1
      rw [step1]
      exact List.filter_sublist _
    have hFPmem : ∀ t ∈ pruneCalls rl.period t1 rl.calls, t ∈ rl.calls := by
      intro t ht
      rw [pruneCalls_eq_filter] at ht
      exact (List.mem_filter.mp ht).1
    obtain ⟨e1, e2, e3, e4, e5⟩ := step_core rl.period rl.max_calls rl.calls A
      (pruneCalls rl.period t1 rl.calls) tl t1 t3
      hA hC hsub hcnt h0 h13 hFPlen hFP3 hFPmem
    exact ⟨rfl, rfl, e1, e2, e3, e4, e5⟩

/-- The sliding-window invariants hold along every valid run. -/
lemma validRun_inv {rl : RateLimiter} {tl : Time} {tr : List Tick}
    {rlf : RateLimiter} {ss : List Time}
    (h : ValidRun rl tl tr rlf ss) :
    ∀ A : List Time,
      rl.calls.length ≤ rl.max_calls →
      (∀ t ∈ A, t ≤ tl) →
      (∀ t ∈ rl.calls, t ≤ tl) →
      (A.filter (recentB rl.period tl)).Sublist rl.calls →
      (∀ T, A.countP (inWindow rl.period T) ≤ rl.max_calls) →
      rlf.max_calls = rl.max_calls ∧ rlf.period = rl.period ∧
      rlf.calls.length ≤ rl.max_calls ∧
      (∀ T, (A ++ tr.map Tick.t3).countP (inWindow rl.period T) ≤ rl.max_calls) := by
  induction h with
  | nil rl tl =>
    intro A hlen _ _ _ hcnt
    exact ⟨rfl, rfl, hlen, by simpa using hcnt⟩
  | cons h0 h1 h2 hacq hsleep hrest ih =>
    intro A hlen hA hC hsub hcnt
    rename_i rl rl' rlf tl s e es ss
    obtain ⟨e1, e2, e3, e4, e5, e6, e7⟩ := acquire_step_inv rl rl' e.t1 e.t2 e.t3
      s A tl hacq hlen hA hC hsub hcnt h0 h1 h2 hsleep
    obtain ⟨f1, f2, f3, f4⟩ := ih (A ++ [e.t3])
      (by rw [e1]; exact e3) e4 e5 (by rw [e2]; exact e6)
      (by rw [e1, e2]; exact e7)
    refine ⟨f1.trans e1, f2.trans e2, by rw [← e1]; exact f3, ?_⟩
    intro T
    have := f4 T
    rw [e1, e2] at this
    simpa [List.append_assoc] using this

/-! ## The claims -/

/-- Claim C3: for every `RateLimiter` and every sequence of sequential
successful `acquire()` calls whose clock readings are consistent with the
monotonic clock and with `asyncio.sleep` (a `ValidRun` from the freshly
constructed limiter), the number of admitted calls whose timestamps lie in
any trailing window of length `period` never exceeds `max_calls`, and the
retained timestamp list after the run has length at most `max_calls`. -/
theorem rate_limiter_sliding_window_bound (mc : ℕ) (p t0 : Time)
    (tr : List Tick) (rlf : RateLimiter) (ss : List Time)
    (h : ValidRun (RateLimiter.init mc p) t0 tr rlf ss) :
    rlf.calls.length ≤ mc ∧
    ∀ T : Time, (tr.map Tick.t3).countP (inWindow p T) ≤ mc := by
  obtain ⟨e1, e2, e3, e4⟩ := validRun_inv h []
    (by simp [RateLimiter.init])
    (by simp)
    (by simp [RateLimiter.init])
    (by simp [RateLimiter.init])
    (by simp)
  exact ⟨e3, fun T => by simpa using e4 T⟩

/-- Checked instance of `rate_limiter_sliding_window_bound` on a one-call
valid run of `RateLimiter(max_calls=3, period=10)`. -/
theorem rate_limiter_sliding_window_bound_checked :
    (([⟨0, 0, 0⟩] : List Tick).map Tick.t3).countP (inWindow 10 5) ≤ 3 := by
  have hv : ValidRun (RateLimiter.init 3 10) 0 [⟨0, 0, 0⟩] ⟨3, 10, [0]⟩ [0] :=
    ValidRun.cons (le_refl 0) (le_refl 0) (le_refl 0)
      (by norm_num [RateLimiter.acquire, pruneCalls, RateLimiter.init])
      (by norm_num) (ValidRun.nil _ _)
  exact (rate_limiter_sliding_window_bound 3 10 0 [⟨0, 0, 0⟩]
    ⟨3, 10, [0]⟩ [0] hv).2 5

/-- Claim C4: for `RateLimiter(max_calls=3, period=10)` with 5 instantaneous
sequential `acquire()` calls (clock readings advance only through acquire's
own suspension), the run is a valid schedule, the first three calls admit
immediately at time 0, the 4th suspends for
`sleep_time = period - (now - oldest) = 10 - (0 - 0) = 10` — pruning
`[0,0,0]` before the count check retains all three timestamps, and
re-pruning at time 10 after the sleep empties the list before the new
timestamp is appended — and the elapsed time from the 1st admission (t = 0)
to the 5th admission (t = 10) is at least the period. -/
theorem rate_limiter_burst_of_five :
    runAcquires (RateLimiter.init 3 10)
        [⟨0, 0, 0⟩, ⟨0, 0, 0⟩, ⟨0, 0, 0⟩, ⟨0, 10, 10⟩, ⟨10, 10, 10⟩] =
      some (⟨3, 10, [10, 10]⟩, [0, 0, 0, 10, 0]) ∧
    ValidRun (RateLimiter.init 3 10) 0
      [⟨0, 0, 0⟩, ⟨0, 0, 0⟩, ⟨0, 0, 0⟩, ⟨0, 10, 10⟩, ⟨10, 10, 10⟩]
      ⟨3, 10, [10, 10]⟩ [0, 0, 0, 10, 0] ∧
    (10 : Time) = 10 - (0 - 0) ∧
    pruneCalls 10 0 [0, 0, 0] = [0, 0, 0] ∧
    pruneCalls 10 10 [0, 0, 0] = [] ∧
    (10 : Time) - 0 ≥ 10 := by
  refine ⟨?_, ?_, by norm_num, ?_, ?_, by norm_num⟩
  · norm_num [runAcquires, RateLimiter.acquire, pruneCalls, RateLimiter.init]
  · have v5 : ValidRun ⟨3, 10, [10]⟩ 10 [⟨10, 10, 10⟩] ⟨3, 10, [10, 10]⟩ [0] :=
      ValidRun.cons (by norm_num) (by norm_num) (by norm_num)
        (by norm_num [RateLimiter.acquire, pruneCalls]) (by norm_num)
        (ValidRun.nil _ _)
    have v4 : ValidRun ⟨3, 10, [0, 0, 0]⟩ 0 [⟨0, 10, 10⟩, ⟨10, 10, 10⟩]
        ⟨3, 10, [10, 10]⟩ [10, 0] :=
      ValidRun.cons (by norm_num) (by norm_num) (by norm_num)
        (by norm_num [RateLimiter.acquire, pruneCalls]) (by norm_num) v5
    have v3 : ValidRun ⟨3, 10, [0, 0]⟩ 0
        [⟨0, 0, 0⟩, ⟨0, 10, 10⟩, ⟨10, 10, 10⟩] ⟨3, 10, [10, 10]⟩ [0, 10, 0] :=
      ValidRun.cons (by norm_num) (by norm_num) (by norm_num)
        (by norm_num [RateLimiter.acquire, pruneCalls]) (by norm_num) v4
    have v2 : ValidRun ⟨3, 10, [0]⟩ 0
        [⟨0, 0, 0⟩, ⟨0, 0, 0⟩, ⟨0, 10, 10⟩, ⟨10, 10, 10⟩]
        ⟨3, 10, [10, 10]⟩ [0, 0, 10, 0] :=
      ValidRun.cons (by norm_num) (by norm_num) (by norm_num)
        (by norm_num [RateLimiter.acquire, pruneCalls]) (by norm_num) v3
    exact ValidRun.cons (by norm_num) (by norm_num) (by norm_num)
      (by norm_num [RateLimiter.acquire, pruneCalls, RateLimiter.init])
      (by norm_num) v2
  · norm_num [pruneCalls]
  · norm_num [pruneCalls]

/-- Claim C5: under a semaphore of capacity `k`, every state reachable from
the initial batch state keeps the number of in-flight calls at or below `k`
(the free permits and the in-flight count always sum to `k`, each exit path
releasing its permit), and once every task is done the in-flight count is 0
and all `k` permits are free again. -/
theorem gate_capacity_bound (k n : ℕ) (s : GateSys)
    (hr : GateReachable (gateInit k n) s) :
    inflight s ≤ k ∧
    inflight s + s.sem = k ∧
    ((∀ p ∈ s.tasks, p = .task_done) → inflight s = 0 ∧ s.sem = k) := by
  have h := gate_inv k n s hr
  refine ⟨by omega, h.2, fun hdone => ?_⟩
  have h0 : inflight s = 0 := by
    simp only [inflight, List.countP_eq_zero]
    intro p hp
    simp [hdone p hp]
  exact ⟨h0, by omega⟩

/-- Checked instance of `gate_capacity_bound`: with capacity 2 and three
tasks, after one task enters the guarded region the in-flight count is
within the bound and balances the free permits. -/
theorem gate_capacity_bound_checked :
    inflight ⟨2, 1, [.task_running, .task_pending, .task_pending]⟩ ≤ 2 ∧
    inflight ⟨2, 1, [.task_running, .task_pending, .task_pending]⟩ +
      GateSys.sem ⟨2, 1, [.task_running, .task_pending, .task_pending]⟩ = 2 := by
  have h := gate_capacity_bound 2 3
    ⟨2, 1, [.task_running, .task_pending, .task_pending]⟩
    (GateReachable.step GateReachable.refl
      (GateStep.enter (gateInit 2 3) 0 rfl (by decide)))
  exact ⟨h.1, h.2.1⟩

/-- Claim C7: in the batched fallback `invoke_concurrently_batch` — assuming
`llm.abatch` returns one response per submitted prompt when it succeeds — a
chunk-level exception causes every prompt of that chunk to be retried
individually, an individual retry that fails contributes the `"No Response"`
sentinel for that prompt alone (each retried prompt's entry depends only on
its own singleton call), and every input prompt contributes exactly one
entry to the result list. -/
theorem invoke_concurrently_batch_isolated (g : BatchOracle)
    (exs : List String)
    (hlen : ∀ b rs, g b = .ok rs → rs.length = b.length) :
    (invoke_concurrently_batch g exs).length = exs.length ∧
    (∀ (batch : List String) (e : String), g batch = .error e →
      processChunk g batch = batch.map (retryIndividually g)) ∧
    (∀ (q e : String), g [q] = .error e → retryIndividually g q = .sentinel) ∧
    (∀ (q : String) (rs : List Response) (r : Response), g [q] = .ok rs →
      rs.head? = some r → retryIndividually g q = .resp r) := by
  refine ⟨?_, fun batch e he => ?_, fun q e he => ?_, fun q rs r hok hh => ?_⟩
  · exact chunks_flatMap_length g hlen batchSize (by decide) exs
  · simp [processChunk, he]
  · simp [retryIndividually, he]
  · simp [retryIndividually, hok, hh]

/-- Checked instance of `invoke_concurrently_batch_isolated` with an oracle
whose chunk-level and singleton calls all raise a content-filter error: two
prompts yield two sentinel entries. -/
theorem invoke_concurrently_batch_isolated_checked :
    (invoke_concurrently_batch (fun _ => .error "was filtered due to policy")
        ["a", "b"]).length = 2 ∧
    retryIndividually (fun _ => .error "was filtered due to policy") "a" =
      .sentinel := by
  have h := invoke_concurrently_batch_isolated
    (fun _ => .error "was filtered due to policy") ["a", "b"]
    (fun b rs hok => by simp at hok)
  exact ⟨h.1, h.2.2.1 "a" "was filtered due to policy" rfl⟩

/-- Claim C1: the non-batched dispatch returns one result per prompt, the
result at position `i` being the worker's result for the backend call made
for the prompt at position `i` (`f i` is that call's outcome); and the
positional collection of `asyncio.gather` yields this same list under every
completion order of the tasks. -/
theorem invoke_async_nonbatched_ordered (name : String) (f : ℕ → Outcome)
    (prompts : List String) (order : List ℕ)
    (hperm : order.Perm (List.range prompts.length)) :
    (invoke_async_nonbatched name f prompts).length = prompts.length ∧
    (∀ i, i < prompts.length →
      (invoke_async_nonbatched name f prompts)[i]? =
        some (singleCall name (f i))) ∧
    gatherSlots prompts.length (fun i => singleCall name (f i)) order =
      (invoke_async_nonbatched name f prompts).map some := by
  refine ⟨?_, fun i hi => ?_, ?_⟩
  · simp [invoke_async_nonbatched_eq]
  · simp [invoke_async_nonbatched_eq, List.getElem?_range hi]
  · rw [gatherSlots_eq_of_perm _ _ _ hperm, invoke_async_nonbatched_eq,
      List.map_map]
    rfl

/-- Checked instance of `invoke_async_nonbatched_ordered`: three prompts
completing in the order 2, 0, 1 still produce the in-order result list. -/
theorem invoke_async_nonbatched_ordered_checked :
    (invoke_async_nonbatched "gpt-4o" (fun i => .success ⟨toString i⟩)
        ["a", "b", "c"]).length = 3 ∧
    (invoke_async_nonbatched "gpt-4o" (fun i => .success ⟨toString i⟩)
        ["a", "b", "c"])[1]? = some (.text "1") ∧
    gatherSlots 3
        (fun i => singleCall "gpt-4o" (Outcome.success ⟨toString i⟩))
        [2, 0, 1] =
      (invoke_async_nonbatched "gpt-4o" (fun i => .success ⟨toString i⟩)
        ["a", "b", "c"]).map some := by
  have h := invoke_async_nonbatched_ordered "gpt-4o"
    (fun i => .success ⟨toString i⟩) ["a", "b", "c"] [2, 0, 1] (by decide)
  exact ⟨h.1, by rw [h.2.1 1 (by decide)]; rfl, h.2.2⟩

/-- Claim C2: a backend call that raises — whether a content-filter rejection
or any other exception — resolves to the `"No Response"` sentinel; the
exception does not propagate (the worker is a total function of the single
call's outcome), no retry happens (the worker consults the backend oracle
exactly once, at its own position), and the results of sibling prompts in
the batch, which depend only on their own positions' outcomes, are
unaffected. -/
theorem single_call_failure_yields_sentinel (name msg : String)
    (f g : ℕ → Outcome) (prompts : List String) (i : ℕ)
    (hfg : ∀ j, j ≠ i → f j = g j) :
    singleCall name (.failure msg) = .text "No Response" ∧
    ∀ j, j ≠ i →
      (invoke_async_nonbatched name f prompts)[j]? =
        (invoke_async_nonbatched name g prompts)[j]? := by
  constructor
  · simp only [singleCall, singleCallP]
    split <;> rfl
  · intro j hj
    by_cases hjl : j < prompts.length
    · simp [invoke_async_nonbatched_eq, List.getElem?_range hjl, hfg j hj]
    · have h1 : prompts.length ≤ j := Nat.le_of_not_lt hjl
      simp [invoke_async_nonbatched_eq, List.getElem?_eq_none, h1]

/-- Checked instance of `single_call_failure_yields_sentinel`: a
content-filter failure at position 1 of a 3-prompt batch yields the sentinel
there and leaves position 0 unchanged. -/
theorem single_call_failure_yields_sentinel_checked :
    singleCall "gpt-4o" (.failure "the content filter being triggered") =
      .text "No Response" ∧
    (invoke_async_nonbatched "gpt-4o"
        (fun j => if j = 1 then .failure "boom" else .success ⟨"ok"⟩)
        ["a", "b", "c"])[0]? =
      (invoke_async_nonbatched "gpt-4o"
        (fun j => if j = 1 then .success ⟨"fine"⟩ else .success ⟨"ok"⟩)
        ["a", "b", "c"])[0]? := by
  have h := single_call_failure_yields_sentinel "gpt-4o"
    "the content filter being triggered"
    (fun j => if j = 1 then .failure "boom" else .success ⟨"ok"⟩)
    (fun j => if j = 1 then .success ⟨"fine"⟩ else .success ⟨"ok"⟩)
    ["a", "b", "c"] 1 (by intro j hj; simp [hj])
  exact ⟨h.1, h.2 0 (by decide)⟩

/-- Claim C6: rate-class selection from the backend name — `'LLaMA'` gives
`RateLimiter(500, 60)` with semaphore capacity 1; otherwise `'Claude'` gives
`RateLimiter(1000, 30)` with capacity 2; every other name keeps the default
profile `RateLimiter(10000, 60)` with capacity `concurrency_limit`, whose
default value is 25. -/
theorem selectProfile_cases (name : String) (cl : ℕ) :
    (strContains "LLaMA" name = true → selectProfile name cl = ⟨500, 60, 1⟩) ∧
    (strContains "LLaMA" name = false → strContains "Claude" name = true →
      selectProfile name cl = ⟨1000, 30, 2⟩) ∧
    (strContains "LLaMA" name = false → strContains "Claude" name = false →
      selectProfile name cl = ⟨10000, 60, cl⟩) ∧
    defaultConcurrencyLimit = 25 := by
  exact ⟨fun h1 => by simp [selectProfile, h1],
    fun h1 h2 => by simp [selectProfile, h1, h2],
    fun h1 h2 => by simp [selectProfile, h1, h2], rfl⟩

/-- Checked instance of `selectProfile_cases` on the three name classes. -/
theorem selectProfile_cases_checked :
    selectProfile "LLaMA-3-70B" 25 = ⟨500, 60, 1⟩ ∧
    selectProfile "Claude-3-Opus" 25 = ⟨1000, 30, 2⟩ ∧
    selectProfile "gpt-4o" 25 = ⟨10000, 60, 25⟩ :=
  ⟨(selectProfile_cases "LLaMA-3-70B" 25).1 (by decide),
   (selectProfile_cases "Claude-3-Opus" 25).2.1 (by decide) (by decide),
   (selectProfile_cases "gpt-4o" 25).2.2.1 (by decide) (by decide)⟩

/-- Claim C8: the progress counter is advanced exactly once per completed
call — on the success path and on every failure path, through the worker's
`finally` block — so a batch of `n` prompts advances it by exactly `n`. -/
theorem progress_counter_exactly_once (name : String) (f : ℕ → Outcome)
    (outcome : Outcome) (pbar : ℕ) (prompts : List String) :
    (singleCallP name outcome pbar).2 = pbar + 1 ∧
    (runTasksP name f (List.range prompts.length) pbar).2 =
      pbar + prompts.length := by
  refine ⟨?_, ?_⟩
  · rw [singleCallP_eq]
  · rw [runTasksP_snd, List.length_range]

/-- Claim C9: `async_nonbatched` is hard-coded `True`, so `llm_infer` always
returns the `invoke_async_nonbatched` result for the (possibly wrapped)
prompt list — the batched path and its `.content` unwrapping are
unreachable — and a bare-string input behaves exactly like the one-element
list input, so the returned value is always a list of results. -/
theorem llm_infer_always_nonbatched (model : String) (f : ℕ → Outcome)
    (g : BatchOracle) (ex : StrOrList) :
    llm_infer model f g ex =
      .nonbatched (invoke_async_nonbatched model f
        (match ex with | .str s => [s] | .list l => l)) ∧
    ∀ s : String, llm_infer model f g (.str s) = llm_infer model f g (.list [s]) := by
  exact ⟨by cases ex <;> rfl, fun s => rfl⟩

/-- Claim C10: on a successful call the worker returns the raw response
object exactly when the model name contains `"llama"` case-insensitively
and `response.content` otherwise; since rate-class selection matches the
case-sensitive `'LLaMA'`, the lowercase-named model `"llama-2-70b"` gets
the default rate profile (10000 calls / 60 s, concurrency 25) and yet its
responses come back raw instead of as `.content`. -/
theorem single_call_llama_case_mismatch :
    (∀ (name : String) (resp : Response),
      singleCall name (.success resp) =
        if strContainsLower "llama" name then .raw resp else .text resp.content) ∧
    strContains "LLaMA" "llama-2-70b" = false ∧
    strContainsLower "llama" "llama-2-70b" = true ∧
    selectProfile "llama-2-70b" defaultConcurrencyLimit = ⟨10000, 60, 25⟩ ∧
    (∀ resp : Response, singleCall "llama-2-70b" (.success resp) = .raw resp) := by
  have hmain : ∀ (name : String) (resp : Response),
      singleCall name (.success resp) =
        if strContainsLower "llama" name then .raw resp else .text resp.content := by
    intro name resp
    simp only [singleCall, singleCallP]
    rcases h : strContainsLower "llama" name <;> simp [h]
  refine ⟨hmain, by decide, by decide, by decide, fun resp => ?_⟩
  rw [hmain]
  simp [show strContainsLower "llama" "llama-2-70b" = true from by decide]

end LLMInfer
